import Mathlib

/-!
Verification of the ranking / highlighting core of the SearchWindow
extension (`src/FileSearchViewProvider.ts`) and of the caller-side suffix
post-filter (`media/main.js`).

Strings are modelled as lists of characters (`Str`); JavaScript's
`toLowerCase` is modelled as the character-wise `Char.toLower`, which
preserves length, so `query.length` and the length of the normalized
query coincide, as they do for the inputs this extension handles.
The locale-aware `localeCompare` tie-break is environment dependent and is
therefore modelled as an abstract parameter of the comparator.
-/

namespace SearchWindow

abbrev Str := List Char

/-- `toLowerCase`, character-wise. -/
def lower (s : Str) : Str := s.map Char.toLower

/-- Case folding per the active mode: identity when case sensitive,
`toLowerCase` otherwise (`caseSensitive ? s : s.toLowerCase()`). -/
def fold (caseSensitive : Bool) (s : Str) : Str :=
  if caseSensitive then s else lower s

/-- `s.substring(a, b)` for the in-bounds, `a ≤ b` uses that occur in the
source (JavaScript clamps and swaps out-of-order arguments; all call sites
verified here satisfy `a ≤ b ≤ s.length`). -/
def substr (s : Str) (a b : Nat) : Str := (s.take b).drop a

/-- The pattern `q` occurs in `s` at position `p`. -/
def occursAt (s q : Str) (p : Nat) : Prop :=
  (s.drop p).take q.length = q ∧ p + q.length ≤ s.length

instance (s q : Str) (p : Nat) : Decidable (occursAt s q p) := by
  unfold occursAt; infer_instance

/-- `q` occurs somewhere in `s` (spec-side notion of "contains as a
substring"). -/
def substrOf (q s : Str) : Prop := ∃ p, occursAt s q p

instance substrOfDec (q s : Str) : Decidable (substrOf q s) :=
  decidable_of_iff (∃ p : Fin (s.length + 1), occursAt s q p.1) (by
    constructor
    · rintro ⟨p, h⟩; exact ⟨p.1, h⟩
    · rintro ⟨p, h⟩
      exact ⟨⟨p, by have := h.2; omega⟩, h⟩)

/-- `j` is the index of the first occurrence of `q` in `s`. -/
def leastOccP (s q : Str) (j : Nat) : Prop :=
  occursAt s q j ∧ ∀ p, p < j → ¬ occursAt s q p

/-- The position of the first occurrence of `q` in `s`, scanning left to
right; a full fit is required, so with a non-empty `q` the tail base case
yields `none`. -/
def firstOccAux (q : Str) : Str → Option Nat
  | [] => if q = [] then some 0 else none
  | c :: rest =>
    if q.isPrefixOf (c :: rest) then some 0
    else (firstOccAux q rest).map (· + 1)

/-- `s.indexOf(q, i)`: the least position `≥ i` at which `q` occurs in `s`,
`none` when there is none (JavaScript's `-1`). -/
def firstOccFrom (s q : Str) (i : Nat) : Option Nat :=
  if i ≤ s.length then (firstOccAux q (s.drop i)).map (· + i) else none

/-- `s.indexOf(q)`. -/
def firstOcc (s q : Str) : Option Nat := firstOccFrom s q 0

/-- `s.includes(q)` (substring search, like `indexOf(q) !== -1`). -/
def jsIncludes (s q : Str) : Bool := (firstOcc s q).isSome

/-- `s.startsWith(q)`. -/
def jsStartsWith (s q : Str) : Bool := q.isPrefixOf s

/-- `filename.lastIndexOf('.')`: the greatest index holding a dot,
`none` when there is no dot (JavaScript's `-1`). -/
def lastDot (s : Str) : Option Nat :=
  ((List.range s.length).filter (fun i => s.getD i ' ' = '.')).getLast?

/-- `_getBasename`: the part before the last dot when that dot exists and
is not the first character, the whole name otherwise. -/
def getBasename (filename : Str) : Str :=
  match lastDot filename with
  | some i => if 0 < i then filename.take i else filename
  | none => filename

/-- The dynamic-programming table of `_editDistance`, as the recurrence the
source fills into `dp`: `dp[i][0] = i`, `dp[0][j] = j`, and for the main
cell either copy the diagonal on equal characters or take
`min(deletion, insertion, substitution) + 1`. -/
def dpF (s1 s2 : Str) : Nat → Nat → Nat
  | 0, j => j
  | i + 1, 0 => i + 1
  | i + 1, j + 1 =>
    if s1.getD i ' ' = s2.getD j ' ' then dpF s1 s2 i j
    else min (dpF s1 s2 i (j + 1) + 1) (min (dpF s1 s2 (i + 1) j + 1) (dpF s1 s2 i j + 1))
termination_by i j => (i, j)

/-- `_editDistance(s1, s2) = dp[s1.length][s2.length]`. -/
def editDistance (s1 s2 : Str) : Nat := dpF s1 s2 s1.length s2.length

/-- Spec-side Levenshtein distance, in the classic textbook recursion. -/
def lev : Str → Str → Nat
  | [], ys => ys.length
  | x :: xs, [] => (x :: xs).length
  | x :: xs, y :: ys =>
    if x = y then lev xs ys
    else 1 + min (lev (x :: xs) ys) (min (lev xs (y :: ys)) (lev xs ys))

/-- `EditSeq n xs ys`: `xs` can be transformed into `ys` using `n`
single-character insertions, deletions and substitutions (matching equal
characters is free). -/
inductive EditSeq : Nat → Str → Str → Prop
  | nil : EditSeq 0 [] []
  | keep {n : Nat} {xs ys : Str} (x : Char) :
      EditSeq n xs ys → EditSeq n (x :: xs) (x :: ys)
  | subst {n : Nat} {xs ys : Str} (x y : Char) :
      EditSeq n xs ys → EditSeq (n + 1) (x :: xs) (y :: ys)
  | ins {n : Nat} {xs ys : Str} (y : Char) :
      EditSeq n xs ys → EditSeq (n + 1) xs (y :: ys)
  | del {n : Nat} {xs ys : Str} (x : Char) :
      EditSeq n xs ys → EditSeq (n + 1) (x :: xs) ys

/-- `d` is the minimum number of single-character edits transforming `xs`
into `ys` — the Levenshtein edit distance in its "minimum number of
operations" reading. -/
def IsLev (d : Nat) (xs ys : Str) : Prop :=
  EditSeq d xs ys ∧ ∀ n, EditSeq n xs ys → d ≤ n

/-- The rank record `_calculateRank` returns. An absent match position
(JavaScript `Infinity`, stored when `indexOf` returned `-1`) is `none`. -/
structure Rank where
  tier : Nat
  editDist : Nat
  length : Nat
  position : Option Nat
deriving DecidableEq

/-- `_calculateRank`. The mutable `tier` / `position` pair is threaded as
the explicit pair `tp`; the final branch keeps the initial
`position = fn.indexOf(q)` (and `position >= 0 ? position : Infinity`
is the `Option` itself). -/
def calculateRank (filename query : Str) (caseSensitive : Bool) : Rank :=
  let fn := if caseSensitive then filename else lower filename
  let q := if caseSensitive then query else lower query
  let basename := getBasename fn
  let queryBasename := getBasename q
  let tp : Nat × Option Nat :=
    if fn = q then (0, some 0)
    else if basename = queryBasename ∨ basename = q then (1, some 0)
    else if jsStartsWith basename q then (2, some 0)
    else if jsIncludes basename q then (3, firstOcc basename q)
    else if jsIncludes fn q then (4, firstOcc fn q)
    else (5, firstOcc fn q)
  { tier := tp.1
    editDist := editDistance basename q
    length := filename.length
    position := tp.2 }

/-- The sign-relevant value of `rankA.position - rankB.position` in the
comparator. Only reached under `rankA.position !== rankB.position`, and a
JavaScript subtraction involving a single `Infinity` is `±Infinity`; only
its sign is consumed by the sort, so `±1` stands in for it. The equal
`none`/`none` case is unreachable behind that guard. -/
def posSub : Option Nat → Option Nat → Int
  | some a, some b => (a : Int) - b
  | some _, none => -1
  | none, some _ => 1
  | none, none => 0

/-- `_compareFilesByRelevance`, parametrized by the locale-aware
`localeCompare` tie-break `lc`. -/
def compareFilesByRelevance (lc : Str → Str → Int) (filenameA filenameB query : Str)
    (caseSensitive : Bool) : Int :=
  let rankA := calculateRank filenameA query caseSensitive
  let rankB := calculateRank filenameB query caseSensitive
  if rankA.tier ≠ rankB.tier then (rankA.tier : Int) - rankB.tier
  else if rankA.editDist ≠ rankB.editDist then (rankA.editDist : Int) - rankB.editDist
  else if rankA.length ≠ rankB.length then (rankA.length : Int) - rankB.length
  else if rankA.position ≠ rankB.position then posSub rankA.position rankB.position
  else lc filenameA filenameB

/-- Spec-side strict order on match positions: ascending, with "absent"
(`none`, i.e. `+∞`) after every concrete position. -/
def posLtP : Option Nat → Option Nat → Prop
  | some a, some b => a < b
  | some _, none => True
  | none, _ => False

/-- Spec-side lexicographic order on the rank tuple
(tier, editDistance, nameLength, matchPosition, locale-aware alphabetical
on the original strings): a difference at an earlier key wins, later keys
are consulted only on exact equality. -/
def rankTupleLt (lc : Str → Str → Int) (a b : Str) (ra rb : Rank) : Prop :=
  ra.tier < rb.tier ∨ (ra.tier = rb.tier ∧
    (ra.editDist < rb.editDist ∨ (ra.editDist = rb.editDist ∧
      (ra.length < rb.length ∨ (ra.length = rb.length ∧
        (posLtP ra.position rb.position ∨
          (ra.position = rb.position ∧ lc a b < 0)))))))

/-- Spec-side tier assignment, rule by rule in the spec's strict priority
order (first matching rule wins). -/
def specTier (filename query : Str) (caseSensitive : Bool) : Nat :=
  let fn := fold caseSensitive filename
  let q := fold caseSensitive query
  let basename := getBasename fn
  let queryBasename := getBasename q
  if fn = q then 0
  else if basename = queryBasename ∨ basename = q then 1
  else if q <+: basename then 2
  else if substrOf q basename then 3
  else if substrOf q fn then 4
  else 5

/-- One segment of the highlighted rendering of a filename: literal text,
or a matched (bolded) range. -/
inductive Seg
  | lit (text : Str)
  | hit (text : Str)
deriving DecidableEq

/-- The substring a segment carries. -/
def segText : Seg → Str
  | .lit t => t
  | .hit t => t

/-- Markdown rendering of a segment (`'**' + text + '**'` for a match). -/
def renderSeg : Seg → Str
  | .lit t => t
  | .hit t => '*' :: '*' :: (t ++ ['*', '*'])

/-- The occurrence-collecting loop of `_boldMatchingText`: starting at
`searchPos`, repeatedly `indexOf` the query and push
`(index, index + q.length)`, advancing by one character so overlapping
occurrences are all found. (`query.length` in the source equals `q.length`
here, lowercasing being character-wise.) -/
def findPositions (fn q : Str) (searchPos : Nat) : List (Nat × Nat) :=
  if searchPos < fn.length then
    match h : firstOccFrom fn q searchPos with
    | none => []
    | some index => (index, index + q.length) :: findPositions fn q (index + 1)
  else []
termination_by fn.length - searchPos
decreasing_by
  simp_wf
  have hge : searchPos ≤ index := by
    rw [firstOccFrom, if_pos (by omega)] at h
    rcases Option.map_eq_some'.mp h with ⟨k, -, hk⟩
    omega
  omega

/-- One step of the merging loop of `_boldMatchingText`: push the span when
the accumulator is empty or the span starts strictly after the last merged
end, otherwise extend the last merged span's end by `max`. -/
def mergeStep (merged : List (Nat × Nat)) (pos : Nat × Nat) : List (Nat × Nat) :=
  match merged.getLast? with
  | none => [pos]
  | some last =>
    if last.2 < pos.1 then merged ++ [pos]
    else merged.dropLast ++ [(last.1, max last.2 pos.2)]

/-- The merging loop of `_boldMatchingText` over all collected positions. -/
def mergePositions (ps : List (Nat × Nat)) : List (Nat × Nat) :=
  ps.foldl mergeStep []

/-- Recursive restatement of the merging loop, carrying the still-open last
span `cur` explicitly; proven equal to `mergePositions` below and used in
the proofs. -/
def mergeRun (cur : Nat × Nat) : List (Nat × Nat) → List (Nat × Nat)
  | [] => [cur]
  | p :: ps =>
    if cur.2 < p.1 then cur :: mergeRun p ps
    else mergeRun (cur.1, max cur.2 p.2) ps

/-- The output-building loop of `_boldMatchingText`, as the segments it
emits: the literal text before each merged span, the matched text of the
span, and finally `filename.substring(lastEnd)`. -/
def emitFrom (filename : Str) (lastEnd : Nat) : List (Nat × Nat) → List Seg
  | [] => [Seg.lit (substr filename lastEnd filename.length)]
  | (s, e) :: rest =>
    Seg.lit (substr filename lastEnd s) :: Seg.hit (substr filename s e) ::
      emitFrom filename e rest

/-- `_boldMatchingText`, decomposed into the segments it concatenates:
empty query or no occurrence returns the name as one literal segment,
otherwise the merged spans are rendered over the original name. -/
def boldSegments (filename query : Str) (caseSensitive : Bool) : List Seg :=
  if query = [] then [Seg.lit filename]
  else
    let fn := if caseSensitive then filename else lower filename
    let q := if caseSensitive then query else lower query
    let positions := findPositions fn q 0
    if positions = [] then [Seg.lit filename]
    else emitFrom filename 0 (mergePositions positions)

/-- The string `_boldMatchingText` returns: its segments rendered in order
(`**`-wrapped for matches) and concatenated. -/
def boldMatchingText (filename query : Str) (caseSensitive : Bool) : Str :=
  ((boldSegments filename query caseSensitive).map renderSeg).flatten

/-- The merged spans the highlighter emits for a (filename, query, flag)
triple. -/
def mergedSpans (filename query : Str) (caseSensitive : Bool) : List (Nat × Nat) :=
  mergePositions (findPositions (fold caseSensitive filename) (fold caseSensitive query) 0)

/-- Every index of `[s, e)` lies inside an occurrence of `q` in `fn` that
is itself contained in `[s, e)`. -/
def coverSpan (fn q : Str) (s e : Nat) : Prop :=
  ∀ i, s ≤ i → i < e →
    ∃ p, s ≤ p ∧ p + q.length ≤ e ∧ occursAt fn q p ∧ p ≤ i ∧ i < p + q.length

/-- The per-file predicate of the `search` handler's `filter` callback:
in regex mode compile the pattern (with the `i` flag unless case
sensitive) and test the name, an invalid pattern (`compileRegex` returns
`none`, the thrown `SyntaxError` of `new RegExp`) being caught and mapped
to `false`; in non-regex mode a case-folded substring test. The regex
engine is the JavaScript builtin and is abstracted as the
`compileRegex` / `regexTest` parameters. -/
def filterPasses {α : Type} (compileRegex : Str → Bool → Option α)
    (regexTest : α → Str → Bool) (useRegex caseSensitive : Bool)
    (value fileName : Str) : Bool :=
  if useRegex then
    match compileRegex value caseSensitive with
    | some regex => regexTest regex fileName
    | none => false
  else
    if caseSensitive then jsIncludes fileName value
    else jsIncludes (lower fileName) (lower value)

/-- One ranked result as the webview script sees it. -/
structure SearchResult where
  uri : Str
  label : Str
  description : Str
deriving DecidableEq

/-- JavaScript `String.prototype.trim`. -/
def trim (s : Str) : Str :=
  (((s.dropWhile Char.isWhitespace).reverse).dropWhile Char.isWhitespace).reverse

/-- The comma-separated suffix list `applyFilter` parses: split on commas,
trim and lowercase each piece, drop empty pieces. -/
def parsedSuffixes (filterValue : Str) : List Str :=
  ((filterValue.splitOn ',').map (fun s => lower (trim s))).filter (fun s => s ≠ [])

/-- `applyFilter` from `media/main.js`: blank filter text or no usable
suffixes keep all results; otherwise keep the results whose lowercased
label ends with some suffix, each suffix getting a leading dot when it
lacks one. -/
def applyFilter (filterInputValue : Str) (allResults : List SearchResult) :
    List SearchResult :=
  let filterValue := trim filterInputValue
  if filterValue = [] then allResults
  else
    let suffixes := parsedSuffixes filterValue
    if suffixes = [] then allResults
    else allResults.filter (fun file =>
      let fileName := lower file.label
      suffixes.any (fun suffix =>
        let normalizedSuffix := if suffix.head? = some '.' then suffix else '.' :: suffix
        normalizedSuffix.isSuffixOf fileName))

/-! ### Correctness of the substring-search primitives -/

theorem occursAt_zero_iff {l q : Str} : occursAt l q 0 ↔ q <+: l := by
  constructor
  · rintro ⟨htake, hlen⟩
    rw [List.drop_zero] at htake
    exact htake ▸ List.take_prefix _ _
  · intro h
    refine ⟨?_, ?_⟩
    · rw [List.drop_zero, ← List.prefix_iff_eq_take.mp h]
    · simpa using h.length_le

theorem occursAt_cons_succ {c : Char} {rest q : Str} {p : Nat} :
    occursAt (c :: rest) q (p + 1) ↔ occursAt rest q p := by
  unfold occursAt
  simp [List.length_cons]
  omega

theorem occursAt_drop {s q : Str} {i p : Nat} (hi : i ≤ s.length) :
    occursAt (s.drop i) q p ↔ occursAt s q (i + p) := by
  unfold occursAt
  rw [List.drop_drop, List.length_drop]
  constructor
  · rintro ⟨h1, h2⟩; exact ⟨h1, by omega⟩
  · rintro ⟨h1, h2⟩; exact ⟨h1, by omega⟩

theorem firstOccAux_some {q s : Str} {k : Nat} (h : firstOccAux q s = some k) :
    occursAt s q k ∧ ∀ p, p < k → ¬ occursAt s q p := by
  induction s generalizing k with
  | nil =>
    rw [firstOccAux] at h
    split at h
    · rename_i hq
      obtain rfl : 0 = k := by simpa using h
      subst hq
      exact ⟨⟨rfl, by simp⟩, by omega⟩
    · simp at h
  | cons c rest ih =>
    rw [firstOccAux] at h
    split at h
    · rename_i hpre
      obtain rfl : 0 = k := by simpa using h
      refine ⟨occursAt_zero_iff.mpr (List.isPrefixOf_iff_prefix.mp hpre), by omega⟩
    · rename_i hpre
      rcases Option.map_eq_some'.mp h with ⟨k', hk', rfl⟩
      obtain ⟨hocc, hmin⟩ := ih hk'
      refine ⟨occursAt_cons_succ.mpr hocc, ?_⟩
      intro p hp
      match p with
      | 0 =>
        intro hc
        exact hpre (List.isPrefixOf_iff_prefix.mpr (occursAt_zero_iff.mp hc))
      | p' + 1 =>
        intro hc
        exact hmin p' (by omega) (occursAt_cons_succ.mp hc)

theorem firstOccAux_none {q s : Str} (h : firstOccAux q s = none) :
    ∀ p, ¬ occursAt s q p := by
  induction s with
  | nil =>
    rw [firstOccAux] at h
    split at h
    · simp at h
    · rename_i hq
      rintro p ⟨-, hlen⟩
      simp only [List.length_nil, Nat.le_zero, Nat.add_eq_zero] at hlen
      exact hq (List.eq_nil_of_length_eq_zero hlen.2)
  | cons c rest ih =>
    rw [firstOccAux] at h
    split at h
    · simp at h
    · rename_i hpre
      have haux : firstOccAux q rest = none := by
        cases hx : firstOccAux q rest with
        | none => rfl
        | some v => rw [hx] at h; simp at h
      intro p
      match p with
      | 0 =>
        intro hc
        exact hpre (List.isPrefixOf_iff_prefix.mpr (occursAt_zero_iff.mp hc))
      | p' + 1 =>
        intro hc
        exact ih haux p' (occursAt_cons_succ.mp hc)

theorem firstOccFrom_some {s q : Str} {i k : Nat} (h : firstOccFrom s q i = some k) :
    i ≤ k ∧ occursAt s q k ∧ ∀ p, i ≤ p → p < k → ¬ occursAt s q p := by
  rw [firstOccFrom] at h
  split at h
  · rename_i hi
    rcases Option.map_eq_some'.mp h with ⟨k', hk', rfl⟩
    obtain ⟨hocc, hmin⟩ := firstOccAux_some hk'
    refine ⟨by omega, ?_, ?_⟩
    · have := (occursAt_drop hi).mp hocc
      rwa [Nat.add_comm i k'] at this
    · intro p hip hpk hc
      have hd : occursAt (s.drop i) q (p - i) :=
        (occursAt_drop hi).mpr (by rw [Nat.add_sub_cancel' hip]; exact hc)
      exact hmin (p - i) (by omega) hd
  · simp at h

theorem firstOccFrom_none {s q : Str} {i : Nat} (h : firstOccFrom s q i = none) :
    ∀ p, i ≤ p → ¬ occursAt s q p := by
  rw [firstOccFrom] at h
  split at h
  · rename_i hi
    have haux : firstOccAux q (s.drop i) = none := by
      cases hx : firstOccAux q (s.drop i) with
      | none => rfl
      | some v => rw [hx] at h; simp at h
    intro p hip hc
    have hd : occursAt (s.drop i) q (p - i) :=
      (occursAt_drop hi).mpr (by rw [Nat.add_sub_cancel' hip]; exact hc)
    exact firstOccAux_none haux _ hd
  · rename_i hi
    rintro p hip ⟨-, hlen⟩
    omega

theorem firstOcc_some {s q : Str} {k : Nat} (h : firstOcc s q = some k) :
    leastOccP s q k := by
  obtain ⟨-, hocc, hmin⟩ := firstOccFrom_some h
  exact ⟨hocc, fun p hp => hmin p (Nat.zero_le p) hp⟩

theorem firstOcc_none {s q : Str} (h : firstOcc s q = none) :
    ∀ p, ¬ occursAt s q p :=
  fun p => firstOccFrom_none h p (Nat.zero_le p)

theorem jsIncludes_iff {s q : Str} : jsIncludes s q = true ↔ substrOf q s := by
  unfold jsIncludes
  constructor
  · intro h
    rcases Option.isSome_iff_exists.mp h with ⟨k, hk⟩
    exact ⟨k, (firstOcc_some hk).1⟩
  · rintro ⟨p, hp⟩
    cases hx : firstOcc s q with
    | none => exact absurd hp (firstOcc_none hx p)
    | some v => simp [hx]

theorem jsStartsWith_iff {s q : Str} : jsStartsWith s q = true ↔ q <+: s :=
  List.isPrefixOf_iff_prefix

theorem jsIncludes_eq_false {s q : Str} (h : jsIncludes s q = false) :
    firstOcc s q = none := by
  unfold jsIncludes at h
  cases hx : firstOcc s q with
  | none => rfl
  | some v => rw [hx] at h; simp at h

theorem lower_length {s : Str} : (lower s).length = s.length :=
  List.length_map s Char.toLower

theorem findPositions_eq_nil {fn q : Str} {sp : Nat}
    (h : firstOccFrom fn q sp = none) : findPositions fn q sp = [] := by
  rw [findPositions]
  split
  · split
    · rfl
    · rename_i heq; rw [h] at heq; cases heq
  · rfl

/-! ### Position order and comparator sign lemmas -/

theorem posLtP_irrefl (p : Option Nat) : ¬ posLtP p p := by
  cases p <;> simp [posLtP]

theorem posSub_neg_iff {x y : Option Nat} (h : x ≠ y) :
    posSub x y < 0 ↔ posLtP x y := by
  cases x <;> cases y <;> simp_all [posSub, posLtP]

theorem posSub_sign_antisym {x y : Option Nat} (h : x ≠ y) :
    (posSub x y).sign = -(posSub y x).sign := by
  cases x with
  | none =>
    cases y with
    | none => exact absurd rfl h
    | some b => show (1 : Int).sign = -(-1 : Int).sign; decide
  | some a =>
    cases y with
    | none => show (-1 : Int).sign = -(1 : Int).sign; decide
    | some b =>
      show ((a : Int) - b).sign = -((b : Int) - a).sign
      rw [show (b : Int) - a = -((a : Int) - b) by ring, Int.sign_neg, neg_neg]

theorem calculateRank_tier5_position {filename query : Str} {cs : Bool}
    (h : (calculateRank filename query cs).tier = 5) :
    (calculateRank filename query cs).position = none := by
  simp only [calculateRank] at h ⊢
  generalize hfn : (if cs then filename else lower filename) = fn at h ⊢
  generalize hq : (if cs then query else lower query) = q at h ⊢
  split_ifs at h ⊢ with h1 h2 h3 h4 h5
  · exact absurd h (by simp)
  · exact absurd h (by simp)
  · exact absurd h (by simp)
  · exact absurd h (by simp)
  · exact jsIncludes_eq_false (by simpa using h5)

/-! ### Claims C6, C7, C8 -/

/-- Claim C6: an absent match position (`none`, the stored `Infinity`)
sorts after any concrete position under the comparator's position key —
`posSub` is negative against it and positive from it — and whenever the
classifier returns tier 5 the match position is absent, because the
fallback `indexOf` on the full name found no occurrence. -/
theorem absent_position_sorts_last (filename query : Str) (caseSensitive : Bool) :
    (∀ k : Nat, posSub (some k) none < 0 ∧ 0 < posSub none (some k)) ∧
    ((calculateRank filename query caseSensitive).tier = 5 →
      (calculateRank filename query caseSensitive).position = none) := by
  exact ⟨fun k => ⟨by simp [posSub], by simp [posSub]⟩,
    calculateRank_tier5_position⟩

/-- Witness for C6 at a concrete tier-5 input. -/
theorem absent_position_sorts_last_app :
    (calculateRank "a".toList "z".toList true).position = none :=
  (absent_position_sorts_last "a".toList "z".toList true).2 (by decide)

/-- Claim C7: in regex mode an unparsable pattern (`compileRegex` returns
`none`, the caught `SyntaxError` of `new RegExp`) makes every candidate
fail the filter, so the result set is empty; the predicate is a total
Boolean function, so no exception or error value reaches the caller. -/
theorem invalid_regex_no_results {α : Type} (compileRegex : Str → Bool → Option α)
    (regexTest : α → Str → Bool) (caseSensitive : Bool) (value : Str)
    (files : List Str)
    (hinvalid : compileRegex value caseSensitive = none) :
    files.filter (filterPasses compileRegex regexTest true caseSensitive value) = [] := by
  rw [List.filter_eq_nil_iff]
  intro f _
  simp [filterPasses, hinvalid]

/-- Witness for C7 on a concrete candidate list and a failing compiler. -/
theorem invalid_regex_no_results_app :
    List.filter
      (filterPasses (fun _ _ => (none : Option Unit)) (fun _ _ => true) true false "a".toList)
      ["abc".toList] = [] :=
  invalid_regex_no_results (fun _ _ => (none : Option Unit)) (fun _ _ => true)
    false "a".toList ["abc".toList] rfl

/-- Claim C8: in non-regex mode a candidate passes the filter iff its
case-folded name contains the case-folded query as a substring; and when
the query occurs nowhere in the name, the highlighter returns the whole
name as a single literal segment. -/
theorem nonregex_filter_iff {α : Type} (compileRegex : Str → Bool → Option α)
    (regexTest : α → Str → Bool) (caseSensitive : Bool) (name query : Str) :
    (filterPasses compileRegex regexTest false caseSensitive query name = true ↔
      substrOf (fold caseSensitive query) (fold caseSensitive name)) ∧
    (query ≠ [] → ¬ substrOf (fold caseSensitive query) (fold caseSensitive name) →
      boldSegments name query caseSensitive = [Seg.lit name]) := by
  constructor
  · unfold filterPasses fold
    cases caseSensitive <;> simp [jsIncludes_iff]
  · intro hq hno
    have hnone : firstOccFrom (fold caseSensitive name) (fold caseSensitive query) 0 = none := by
      cases hx : firstOccFrom (fold caseSensitive name) (fold caseSensitive query) 0 with
      | none => rfl
      | some k =>
        exact absurd ⟨k, (firstOccFrom_some hx).2.1⟩ hno
    unfold boldSegments
    rw [if_neg hq]
    have hpos : findPositions (fold caseSensitive name) (fold caseSensitive query) 0 = [] :=
      findPositions_eq_nil hnone
    unfold fold at hpos
    cases caseSensitive <;> simp_all

/-- Witness for C8 at a concrete no-match input. -/
theorem nonregex_filter_iff_app :
    boldSegments "abc".toList "xy".toList false = [Seg.lit "abc".toList] :=
  (nonregex_filter_iff (fun _ _ => (none : Option Unit)) (fun _ _ => true)
    false "abc".toList "xy".toList).2 (by decide) (by decide)

/-! ### Claims C1 and C9: the comparator -/

/-- Claim C1: the comparator orders A before B (returns a negative value)
exactly when A's rank tuple (tier, editDistance, nameLength,
matchPosition, locale-aware alphabetical on the original strings) is
lexicographically smaller than B's, falling to a later key only on exact
equality of the earlier ones; in particular a strictly smaller tier alone
forces A before B. -/
theorem comparator_lex_order (lc : Str → Str → Int) (a b q : Str) (cs : Bool) :
    (compareFilesByRelevance lc a b q cs < 0 ↔
      rankTupleLt lc a b (calculateRank a q cs) (calculateRank b q cs)) ∧
    ((calculateRank a q cs).tier < (calculateRank b q cs).tier →
      compareFilesByRelevance lc a b q cs < 0) := by
  have main : compareFilesByRelevance lc a b q cs < 0 ↔
      rankTupleLt lc a b (calculateRank a q cs) (calculateRank b q cs) := by
    simp only [compareFilesByRelevance]
    set ra := calculateRank a q cs with hra
    set rb := calculateRank b q cs with hrb
    unfold rankTupleLt
    split_ifs with h1 h2 h3 h4
    · constructor
      · intro h
        exact Or.inl (by omega)
      · rintro (h | ⟨heq, -⟩)
        · omega
        · exact absurd heq h1
    · constructor
      · intro h
        exact Or.inr ⟨by omega, Or.inl (by omega)⟩
      · rintro (h | ⟨-, h | ⟨heq, -⟩⟩)
        · omega
        · omega
        · exact absurd heq h2
    · constructor
      · intro h
        exact Or.inr ⟨by omega, Or.inr ⟨by omega, Or.inl (by omega)⟩⟩
      · rintro (h | ⟨-, h | ⟨-, h | ⟨heq, -⟩⟩⟩)
        · omega
        · omega
        · omega
        · exact absurd heq h3
    · rw [posSub_neg_iff h4]
      constructor
      · intro h
        exact Or.inr ⟨by omega, Or.inr ⟨by omega, Or.inr ⟨by omega, Or.inl h⟩⟩⟩
      · rintro (h | ⟨-, h | ⟨-, h | ⟨-, h | ⟨heq, -⟩⟩⟩⟩)
        · omega
        · omega
        · omega
        · exact h
        · exact absurd heq h4
    · have h4' : ra.position = rb.position := not_not.mp h4
      constructor
      · intro h
        exact Or.inr ⟨by omega, Or.inr ⟨by omega, Or.inr ⟨by omega, Or.inr ⟨h4', h⟩⟩⟩⟩
      · rintro (h | ⟨-, h | ⟨-, h | ⟨-, h | ⟨-, h⟩⟩⟩⟩)
        · omega
        · omega
        · omega
        · rw [h4'] at h
          exact absurd h (posLtP_irrefl rb.position)
        · exact h
  exact ⟨main, fun hlt => main.mpr (Or.inl hlt)⟩

/-- Witness for C1: a tier-0 candidate sorts before a tier-5 one. -/
theorem comparator_lex_order_app :
    compareFilesByRelevance (fun _ _ => 0) "a".toList "zz".toList "a".toList false < 0 :=
  (comparator_lex_order (fun _ _ => 0) "a".toList "zz".toList "a".toList false).2 (by decide)

/-- Claim C9: the comparator is a pure function with
`compare(A, A) = 0` and `sign(compare(A, B)) = -sign(compare(B, A))`
whenever the locale tie-break has those two properties (as
`localeCompare` does), so the induced ordering is deterministic and ties
are broken by the final alphabetical key. -/
theorem comparator_pure_deterministic (lc : Str → Str → Int)
    (hrefl : ∀ x, lc x x = 0)
    (hanti : ∀ x y, (lc x y).sign = -(lc y x).sign) (a b q : Str) (cs : Bool) :
    compareFilesByRelevance lc a a q cs = 0 ∧
    (compareFilesByRelevance lc a b q cs).sign =
      -(compareFilesByRelevance lc b a q cs).sign := by
  constructor
  · simp [compareFilesByRelevance, hrefl]
  · simp only [compareFilesByRelevance]
    set ra := calculateRank a q cs with hra
    set rb := calculateRank b q cs with hrb
    by_cases h1 : ra.tier = rb.tier
    · rw [if_neg (show ¬(ra.tier ≠ rb.tier) by omega),
        if_neg (show ¬(rb.tier ≠ ra.tier) by omega)]
      by_cases h2 : ra.editDist = rb.editDist
      · rw [if_neg (show ¬(ra.editDist ≠ rb.editDist) by omega),
          if_neg (show ¬(rb.editDist ≠ ra.editDist) by omega)]
        by_cases h3 : ra.length = rb.length
        · rw [if_neg (show ¬(ra.length ≠ rb.length) by omega),
            if_neg (show ¬(rb.length ≠ ra.length) by omega)]
          by_cases h4 : ra.position = rb.position
          · rw [if_neg (show ¬(ra.position ≠ rb.position) by simp [h4]),
              if_neg (show ¬(rb.position ≠ ra.position) by simp [h4])]
            exact hanti a b
          · rw [if_pos (show ra.position ≠ rb.position from h4),
              if_pos (show rb.position ≠ ra.position from Ne.symm h4)]
            exact posSub_sign_antisym h4
        · rw [if_pos (show ra.length ≠ rb.length from h3),
            if_pos (show rb.length ≠ ra.length from Ne.symm h3)]
          rw [show (rb.length : Int) - ra.length = -((ra.length : Int) - rb.length) by ring,
            Int.sign_neg, neg_neg]
      · rw [if_pos (show ra.editDist ≠ rb.editDist from h2),
          if_pos (show rb.editDist ≠ ra.editDist from Ne.symm h2)]
        rw [show (rb.editDist : Int) - ra.editDist = -((ra.editDist : Int) - rb.editDist) by ring,
          Int.sign_neg, neg_neg]
    · rw [if_pos (show ra.tier ≠ rb.tier from h1),
        if_pos (show rb.tier ≠ ra.tier from Ne.symm h1)]
      rw [show (rb.tier : Int) - ra.tier = -((ra.tier : Int) - rb.tier) by ring,
        Int.sign_neg, neg_neg]

/-- Witness for C9 with the constant-zero tie-break. -/
theorem comparator_pure_deterministic_app :
    compareFilesByRelevance (fun _ _ => 0) "a".toList "a".toList "q".toList false = 0 ∧
    (compareFilesByRelevance (fun _ _ => 0) "a".toList "b".toList "q".toList false).sign =
      -(compareFilesByRelevance (fun _ _ => 0) "b".toList "a".toList "q".toList false).sign :=
  comparator_pure_deterministic (fun _ _ => 0) (fun _ => rfl) (fun _ _ => rfl)
    "a".toList "b".toList "q".toList false

/-! ### Claim C3: tier assignment -/

/-- Claim C3: the classifier's tier is assigned by the first matching rule
of the spec's strict ladder (`specTier`); the match position is `0` for
tiers 0–2, the index of the first occurrence of the normalized query in
the basename for tier 3, and in the full normalized name for tier 4; and
query "file" against candidate "file.txt" lands in tier 1. -/
theorem tier_rules (filename query : Str) (cs : Bool) :
    (calculateRank filename query cs).tier = specTier filename query cs ∧
    ((calculateRank filename query cs).tier ≤ 2 →
      (calculateRank filename query cs).position = some 0) ∧
    ((calculateRank filename query cs).tier = 3 →
      ∃ j, (calculateRank filename query cs).position = some j ∧
        leastOccP (getBasename (fold cs filename)) (fold cs query) j) ∧
    ((calculateRank filename query cs).tier = 4 →
      ∃ j, (calculateRank filename query cs).position = some j ∧
        leastOccP (fold cs filename) (fold cs query) j) ∧
    (calculateRank "file.txt".toList "file".toList false).tier = 1 := by
  refine ⟨?_, ?_, ?_, ?_, by decide⟩
  · simp only [calculateRank, specTier, fold, jsStartsWith_iff, jsIncludes_iff]
    split_ifs <;> rfl
  · simp only [calculateRank]
    split_ifs <;> intro h <;> first | rfl | simp at h
  · simp only [calculateRank, fold]
    generalize (if cs = true then filename else lower filename) = fn
    generalize (if cs = true then query else lower query) = q
    split_ifs with h1 h2 h3 h4 h5 <;> intro h
    · simp at h
    · simp at h
    · simp at h
    · unfold jsIncludes at h4
      obtain ⟨k, hk⟩ := Option.isSome_iff_exists.mp h4
      exact ⟨k, by simp [hk], firstOcc_some hk⟩
    · simp at h
    · simp at h
  · simp only [calculateRank, fold]
    generalize (if cs = true then filename else lower filename) = fn
    generalize (if cs = true then query else lower query) = q
    split_ifs with h1 h2 h3 h4 h5 <;> intro h
    · simp at h
    · simp at h
    · simp at h
    · simp at h
    · unfold jsIncludes at h5
      obtain ⟨k, hk⟩ := Option.isSome_iff_exists.mp h5
      exact ⟨k, by simp [hk], firstOcc_some hk⟩
    · simp at h

/-- Witness for C3 at the spec's own example. -/
theorem tier_rules_app :
    (calculateRank "file.txt".toList "file".toList false).position = some 0 :=
  (tier_rules "file.txt".toList "file".toList false).2.1 (by decide)

/-! ### Claim C10: the caller-side suffix post-filter -/

/-- Claim C10: `applyFilter` keeps a ranked result exactly when its
lowercased label ends with one of the parsed suffixes (trimmed, lowercased,
dot-prefixed when needed); blank filter text, or filter text yielding no
non-empty suffixes, keeps every result unchanged and in order. -/
theorem suffix_filter_spec (ft : Str) (rs : List SearchResult) :
    (trim ft = [] → applyFilter ft rs = rs) ∧
    (parsedSuffixes (trim ft) = [] → applyFilter ft rs = rs) ∧
    (∀ r, r ∈ applyFilter ft rs ↔ r ∈ rs ∧
      (parsedSuffixes (trim ft) = [] ∨
        ∃ s ∈ parsedSuffixes (trim ft),
          (if s.head? = some '.' then s else '.' :: s) <:+ lower r.label)) := by
  have hblank : trim ft = [] → applyFilter ft rs = rs := by
    intro h; unfold applyFilter; rw [if_pos h]
  have hempty : parsedSuffixes (trim ft) = [] → applyFilter ft rs = rs := by
    intro h
    unfold applyFilter
    by_cases h0 : trim ft = []
    · rw [if_pos h0]
    · rw [if_neg h0, if_pos h]
  refine ⟨hblank, hempty, ?_⟩
  intro r
  by_cases hs : parsedSuffixes (trim ft) = []
  · rw [hempty hs]
    simp [hs]
  · have h0 : trim ft ≠ [] := by
      intro hh
      rw [hh] at hs
      exact hs (by decide)
    unfold applyFilter
    rw [if_neg h0, if_neg hs]
    rw [List.mem_filter]
    simp only [List.any_eq_true, List.isSuffixOf_iff_suffix]
    constructor
    · rintro ⟨hmem, hpred⟩
      exact ⟨hmem, Or.inr hpred⟩
    · rintro ⟨hmem, hfalse | hex⟩
      · exact absurd hfalse hs
      · exact ⟨hmem, hex⟩

/-- Witness for C10 on a blank filter. -/
theorem suffix_filter_spec_app :
    applyFilter [] [⟨"u".toList, "a.ts".toList, "d".toList⟩] =
      [⟨"u".toList, "a.ts".toList, "d".toList⟩] :=
  (suffix_filter_spec [] [⟨"u".toList, "a.ts".toList, "d".toList⟩]).1 rfl

/-! ### The edit-distance development: the DP table computes the
Levenshtein distance (minimum number of single-character edits) -/

theorem lev_nil_right (xs : Str) : lev xs [] = xs.length := by
  cases xs <;> simp [lev]

theorem take_succ_reverse {l : Str} {i : Nat} (h : i < l.length) (d : Char) :
    (l.take (i + 1)).reverse = l.getD i d :: (l.take i).reverse := by
  rw [List.take_succ, List.getElem?_eq_getElem h, List.getD_eq_getElem l d h]
  rw [Option.toList_some, List.reverse_append, List.reverse_singleton]
  rfl

theorem lev_nil_left (ys : Str) : lev [] ys = ys.length := by
  simp [lev]

theorem lev_cons_eq {x y : Char} (xs ys : Str) (h : x = y) :
    lev (x :: xs) (y :: ys) = lev xs ys := by
  simp [lev, h]

theorem lev_cons_ne {x y : Char} (xs ys : Str) (h : ¬ x = y) :
    lev (x :: xs) (y :: ys) =
      1 + min (lev (x :: xs) ys) (min (lev xs (y :: ys)) (lev xs ys)) := by
  simp [lev, h]

theorem lev_bounds : ∀ (m : Nat) (xs ys : Str), xs.length + ys.length ≤ m →
    (∀ y, lev xs (y :: ys) ≤ 1 + lev xs ys) ∧
    (∀ x, lev (x :: xs) ys ≤ 1 + lev xs ys) ∧
    (∀ y, lev xs ys ≤ 1 + lev xs (y :: ys)) ∧
    (∀ x, lev xs ys ≤ 1 + lev (x :: xs) ys) := by
  intro m
  induction m with
  | zero =>
    intro xs ys h
    obtain rfl : xs = [] := by cases xs <;> simp_all
    obtain rfl : ys = [] := by cases ys <;> simp_all
    exact ⟨fun y => by simp [lev], fun x => by simp [lev],
      fun y => by simp [lev], fun x => by simp [lev]⟩
  | succ m ih =>
    intro xs ys h
    refine ⟨fun y => ?_, fun x => ?_, fun y => ?_, fun x => ?_⟩
    · match xs with
      | [] => simp [lev]; omega
      | x :: xs' =>
        by_cases hxy : x = y
        · rw [show lev (x :: xs') (y :: ys) = lev xs' ys by simp [lev, hxy]]
          have hb := (ih xs' ys (by simp at h ⊢; omega)).2.2.2 x
          exact hb
        · rw [show lev (x :: xs') (y :: ys) =
            1 + min (lev (x :: xs') ys) (min (lev xs' (y :: ys)) (lev xs' ys)) by
              simp [lev, hxy]]
          omega
    · match ys with
      | [] => simp [lev, lev_nil_right]; omega
      | y :: ys' =>
        by_cases hxy : x = y
        · rw [show lev (x :: xs) (y :: ys') = lev xs ys' by simp [lev, hxy]]
          exact (ih xs ys' (by simp at h ⊢; omega)).2.2.1 y
        · rw [show lev (x :: xs) (y :: ys') =
            1 + min (lev (x :: xs) ys') (min (lev xs (y :: ys')) (lev xs ys')) by
              simp [lev, hxy]]
          omega
    · match xs with
      | [] => simp [lev]; omega
      | x :: xs' =>
        by_cases hxy : x = y
        · rw [show lev (x :: xs') (y :: ys) = lev xs' ys by simp [lev, hxy]]
          exact (ih xs' ys (by simp at h ⊢; omega)).2.1 x
        · rw [show lev (x :: xs') (y :: ys) =
            1 + min (lev (x :: xs') ys) (min (lev xs' (y :: ys)) (lev xs' ys)) by
              simp [lev, hxy]]
          have h1 := (ih xs' ys (by simp at h ⊢; omega)).2.1 x
          have h2 := (ih xs' ys (by simp at h ⊢; omega)).2.2.1 y
          omega
    · match ys with
      | [] => simp [lev, lev_nil_right]; omega
      | y :: ys' =>
        by_cases hxy : x = y
        · rw [show lev (x :: xs) (y :: ys') = lev xs ys' by simp [lev, hxy]]
          exact (ih xs ys' (by simp at h ⊢; omega)).1 y
        · rw [show lev (x :: xs) (y :: ys') =
            1 + min (lev (x :: xs) ys') (min (lev xs (y :: ys')) (lev xs ys')) by
              simp [lev, hxy]]
          have h1 := (ih xs ys' (by simp at h ⊢; omega)).1 y
          have h2 := (ih xs ys' (by simp at h ⊢; omega)).2.2.2 x
          omega

theorem editSeq_lev : ∀ xs ys : Str, EditSeq (lev xs ys) xs ys := by
  intro xs
  induction xs with
  | nil =>
    intro ys
    induction ys with
    | nil =>
      rw [show lev ([] : Str) ([] : Str) = 0 by simp [lev]]
      exact EditSeq.nil
    | cons y ys ihy =>
      rw [show lev [] (y :: ys) = lev [] ys + 1 by simp [lev]]
      exact EditSeq.ins y ihy
  | cons x xs ihx =>
    intro ys
    induction ys with
    | nil =>
      rw [show lev (x :: xs) [] = lev xs [] + 1 by simp [lev, lev_nil_right]]
      exact EditSeq.del x (ihx [])
    | cons y ys ihy =>
      by_cases hxy : x = y
      · subst hxy
        rw [show lev (x :: xs) (x :: ys) = lev xs ys by simp [lev]]
        exact EditSeq.keep x (ihx ys)
      · rw [show lev (x :: xs) (y :: ys) =
          1 + min (lev (x :: xs) ys) (min (lev xs (y :: ys)) (lev xs ys)) by
            simp [lev, hxy]]
        have tri : 1 + min (lev (x :: xs) ys) (min (lev xs (y :: ys)) (lev xs ys)) =
            lev (x :: xs) ys + 1 ∨
            1 + min (lev (x :: xs) ys) (min (lev xs (y :: ys)) (lev xs ys)) =
            lev xs (y :: ys) + 1 ∨
            1 + min (lev (x :: xs) ys) (min (lev xs (y :: ys)) (lev xs ys)) =
            lev xs ys + 1 := by omega
        rcases tri with htri | htri | htri <;> rw [htri]
        · exact EditSeq.ins y ihy
        · exact EditSeq.del x (ihx (y :: ys))
        · exact EditSeq.subst x y (ihx ys)

theorem lev_le_editSeq : ∀ {n : Nat} {xs ys : Str}, EditSeq n xs ys → lev xs ys ≤ n := by
  intro n xs ys h
  induction h with
  | nil => simp [lev]
  | keep x _ ih =>
    rename_i xs' ys' _
    rw [show lev (x :: xs') (x :: ys') = lev xs' ys' by simp [lev]]
    exact ih
  | subst x y _ ih =>
    rename_i xs' ys' _
    by_cases hxy : x = y
    · rw [show lev (x :: xs') (y :: ys') = lev xs' ys' by simp [lev, hxy]]
      omega
    · rw [show lev (x :: xs') (y :: ys') =
        1 + min (lev (x :: xs') ys') (min (lev xs' (y :: ys')) (lev xs' ys')) by
          simp [lev, hxy]]
      omega
  | ins y _ ih =>
    rename_i xs' ys' _
    have := (lev_bounds (xs'.length + ys'.length) xs' ys' le_rfl).1 y
    omega
  | del x _ ih =>
    rename_i xs' ys' _
    have := (lev_bounds (xs'.length + ys'.length) xs' ys' le_rfl).2.1 x
    omega

theorem editSeq_keep_append {n : Nat} {xs ys : Str} (a : Char) (h : EditSeq n xs ys) :
    EditSeq n (xs ++ [a]) (ys ++ [a]) := by
  induction h with
  | nil => exact EditSeq.keep a EditSeq.nil
  | keep x _ ih => exact EditSeq.keep x ih
  | subst x y _ ih => exact EditSeq.subst x y ih
  | ins y _ ih => exact EditSeq.ins y ih
  | del x _ ih => exact EditSeq.del x ih

theorem editSeq_subst_append {n : Nat} {xs ys : Str} (a b : Char) (h : EditSeq n xs ys) :
    EditSeq (n + 1) (xs ++ [a]) (ys ++ [b]) := by
  induction h with
  | nil => exact EditSeq.subst a b EditSeq.nil
  | keep x _ ih => exact EditSeq.keep x ih
  | subst x y _ ih => exact EditSeq.subst x y ih
  | ins y _ ih => exact EditSeq.ins y ih
  | del x _ ih => exact EditSeq.del x ih

theorem editSeq_ins_append {n : Nat} {xs ys : Str} (b : Char) (h : EditSeq n xs ys) :
    EditSeq (n + 1) xs (ys ++ [b]) := by
  induction h with
  | nil => exact EditSeq.ins b EditSeq.nil
  | keep x _ ih => exact EditSeq.keep x ih
  | subst x y _ ih => exact EditSeq.subst x y ih
  | ins y _ ih => exact EditSeq.ins y ih
  | del x _ ih => exact EditSeq.del x ih

theorem editSeq_del_append {n : Nat} {xs ys : Str} (a : Char) (h : EditSeq n xs ys) :
    EditSeq (n + 1) (xs ++ [a]) ys := by
  induction h with
  | nil => exact EditSeq.del a EditSeq.nil
  | keep x _ ih => exact EditSeq.keep x ih
  | subst x y _ ih => exact EditSeq.subst x y ih
  | ins y _ ih => exact EditSeq.ins y ih
  | del x _ ih => exact EditSeq.del x ih

theorem editSeq_reverse {n : Nat} {xs ys : Str} (h : EditSeq n xs ys) :
    EditSeq n xs.reverse ys.reverse := by
  induction h with
  | nil => exact EditSeq.nil
  | keep x _ ih => simpa [List.reverse_cons] using editSeq_keep_append x ih
  | subst x y _ ih => simpa [List.reverse_cons] using editSeq_subst_append x y ih
  | ins y _ ih => simpa [List.reverse_cons] using editSeq_ins_append y ih
  | del x _ ih => simpa [List.reverse_cons] using editSeq_del_append x ih

theorem dpF_eq_lev (s1 s2 : Str) :
    ∀ i j, i ≤ s1.length → j ≤ s2.length →
      dpF s1 s2 i j = lev ((s1.take i).reverse) ((s2.take j).reverse) := by
  intro i
  induction i with
  | zero =>
    intro j hi hj
    rw [show dpF s1 s2 0 j = j from by rw [dpF]]
    simp only [List.take_zero, List.reverse_nil, lev]
    rw [List.length_reverse, List.length_take]
    omega
  | succ i ihi =>
    intro j
    induction j with
    | zero =>
      intro hi hj
      rw [show dpF s1 s2 (i + 1) 0 = i + 1 from by rw [dpF]]
      simp only [List.take_zero, List.reverse_nil]
      rw [lev_nil_right, List.length_reverse, List.length_take]
      omega
    | succ j ihj =>
      intro hi hj
      rw [dpF]
      rw [take_succ_reverse (show i < s1.length by omega) ' ',
        take_succ_reverse (show j < s2.length by omega) ' ']
      by_cases hc : s1.getD i ' ' = s2.getD j ' '
      · rw [if_pos hc]
        rw [lev_cons_eq ((s1.take i).reverse) ((s2.take j).reverse) hc]
        exact ihi j (by omega) (by omega)
      · rw [if_neg hc]
        rw [lev_cons_ne ((s1.take i).reverse) ((s2.take j).reverse) hc]
        have e1 := ihi (j + 1) (by omega) hj
        rw [take_succ_reverse (show j < s2.length by omega) ' '] at e1
        have e2 := ihj (by omega) (by omega)
        rw [take_succ_reverse (show i < s1.length by omega) ' '] at e2
        have e3 := ihi j (by omega) (by omega)
        omega

theorem editDistance_eq_lev_rev (s1 s2 : Str) :
    editDistance s1 s2 = lev s1.reverse s2.reverse := by
  unfold editDistance
  rw [dpF_eq_lev s1 s2 s1.length s2.length le_rfl le_rfl,
    List.take_length, List.take_length]

theorem isLev_lev (xs ys : Str) : IsLev (lev xs ys) xs ys :=
  ⟨editSeq_lev xs ys, fun _ h => lev_le_editSeq h⟩

theorem isLev_editDistance (s1 s2 : Str) : IsLev (editDistance s1 s2) s1 s2 := by
  rw [editDistance_eq_lev_rev]
  obtain ⟨h1, h2⟩ := isLev_lev s1.reverse s2.reverse
  constructor
  · simpa using editSeq_reverse h1
  · intro n h
    exact h2 n (editSeq_reverse h)

theorem editSeq_length_le {n : Nat} {xs ys : Str} (h : EditSeq n xs ys) :
    ys.length ≤ xs.length + n := by
  induction h with
  | nil => simp
  | keep x _ ih => simp only [List.length_cons]; omega
  | subst x y _ ih => simp only [List.length_cons]; omega
  | ins y _ ih => simp only [List.length_cons]; omega
  | del x _ ih => simp only [List.length_cons]; omega

/-! ### Claim C2: the editDistance field -/

/-- Counterexample to C2 as stated: for filename "a" and query "b.c"
(case-sensitive), the stored editDistance is 3, the distance to the full
query "b.c"; the Levenshtein distance between the basenames "a" and "b"
is 1, so the stored field is not the basename-to-basename distance. -/
theorem edit_distance_basename_claim_false :
    ¬ IsLev ((calculateRank "a".toList "b.c".toList true).editDist)
      (getBasename (fold true "a".toList)) (getBasename (fold true "b.c".toList)) := by
  intro h
  have h1 : EditSeq 1 (getBasename (fold true "a".toList))
      (getBasename (fold true "b.c".toList)) := by
    show EditSeq 1 ['a'] ['b']
    exact EditSeq.subst 'a' 'b' EditSeq.nil
  have hle : (calculateRank "a".toList "b.c".toList true).editDist ≤ 1 := h.2 1 h1
  have hfull : IsLev ((calculateRank "a".toList "b.c".toList true).editDist)
      (getBasename (fold true "a".toList)) (fold true "b.c".toList) := by
    have e : (calculateRank "a".toList "b.c".toList true).editDist =
        editDistance (getBasename (fold true "a".toList)) (fold true "b.c".toList) := rfl
    rw [e]
    exact isLev_editDistance _ _
  have hlen := editSeq_length_le hfull.1
  have l1 : (fold true "b.c".toList).length = 3 := by decide
  have l2 : (getBasename (fold true "a".toList)).length = 1 := by decide
  omega

/-- Claim C2, amended: the editDistance field equals the Levenshtein edit
distance (minimum number of single-character insertions, deletions and
substitutions) between the normalized basename of the filename and the
full normalized query — not the query's basename. -/
theorem edit_distance_full_query (filename query : Str) (cs : Bool) :
    IsLev ((calculateRank filename query cs).editDist)
      (getBasename (fold cs filename)) (fold cs query) := by
  have e : (calculateRank filename query cs).editDist =
      editDistance (getBasename (fold cs filename)) (fold cs query) := rfl
  rw [e]
  exact isLev_editDistance _ _

/-! ### The highlighter: occurrence scan and span merging -/

theorem findPositions_eq_cons (fn q : Str) (sp index : Nat) (hx : sp < fn.length)
    (hsome : firstOccFrom fn q sp = some index) :
    findPositions fn q sp = (index, index + q.length) :: findPositions fn q (index + 1) := by
  rw [findPositions]
  rw [if_pos hx]
  split
  · rename_i heq
    rw [hsome] at heq
    cases heq
  · rename_i idx heq
    rw [hsome] at heq
    cases heq
    rfl

theorem findPositions_mem {fn q : Str} : ∀ sp, ∀ pr ∈ findPositions fn q sp,
    sp ≤ pr.1 ∧ occursAt fn q pr.1 ∧ pr.2 = pr.1 + q.length := by
  intro sp
  induction sp using findPositions.induct fn q with
  | case1 x hx hnone =>
    intro pr hpr
    rw [findPositions_eq_nil hnone] at hpr
    simp at hpr
  | case2 x hx index hsome ih =>
    intro pr hpr
    rw [findPositions_eq_cons fn q x index hx hsome] at hpr
    have hge : x ≤ index := (firstOccFrom_some hsome).1
    rcases List.mem_cons.mp hpr with rfl | hmem
    · exact ⟨hge, (firstOccFrom_some hsome).2.1, rfl⟩
    · obtain ⟨h1, h2, h3⟩ := ih pr hmem
      exact ⟨by omega, h2, h3⟩
  | case3 x hx =>
    intro pr hpr
    rw [show findPositions fn q x = [] from by rw [findPositions]; rw [if_neg hx]] at hpr
    simp at hpr

theorem findPositions_pairwise {fn q : Str} : ∀ sp,
    List.Pairwise (fun a b : Nat × Nat => a.1 < b.1) (findPositions fn q sp) := by
  intro sp
  induction sp using findPositions.induct fn q with
  | case1 x hx hnone =>
    rw [findPositions_eq_nil hnone]
    exact List.Pairwise.nil
  | case2 x hx index hsome ih =>
    rw [findPositions_eq_cons fn q x index hx hsome]
    refine List.Pairwise.cons ?_ ih
    intro pr hpr
    have h1 := (findPositions_mem (index + 1) pr hpr).1
    show index < pr.1
    omega
  | case3 x hx =>
    rw [show findPositions fn q x = [] from by rw [findPositions]; rw [if_neg hx]]
    exact List.Pairwise.nil

theorem mergeRun_cons_pos {c p : Nat × Nat} {ps : List (Nat × Nat)} (hc : c.2 < p.1) :
    mergeRun c (p :: ps) = c :: mergeRun p ps := by
  rw [mergeRun]
  rw [if_pos hc]

theorem mergeRun_cons_neg {c p : Nat × Nat} {ps : List (Nat × Nat)} (hc : ¬ c.2 < p.1) :
    mergeRun c (p :: ps) = mergeRun (c.1, max c.2 p.2) ps := by
  rw [mergeRun]
  rw [if_neg hc]

theorem foldl_mergeStep (ps : List (Nat × Nat)) :
    ∀ (acc : List (Nat × Nat)) (cur : Nat × Nat),
      List.foldl mergeStep (acc ++ [cur]) ps = acc ++ mergeRun cur ps := by
  induction ps with
  | nil =>
    intro acc cur
    rw [List.foldl_nil, mergeRun]
  | cons p ps ih =>
    intro acc cur
    rw [List.foldl_cons]
    have hstep : mergeStep (acc ++ [cur]) p =
        if cur.2 < p.1 then (acc ++ [cur]) ++ [p]
        else acc ++ [(cur.1, max cur.2 p.2)] := by
      unfold mergeStep
      rw [List.getLast?_concat]
      dsimp only
      split_ifs with hc
      · rfl
      · rw [List.dropLast_concat]
    by_cases hc : cur.2 < p.1
    · rw [hstep, if_pos hc, ih (acc ++ [cur]) p, mergeRun_cons_pos hc]
      simp
    · rw [hstep, if_neg hc, ih acc (cur.1, max cur.2 p.2), mergeRun_cons_neg hc]

theorem mergePositions_cons (p : Nat × Nat) (ps : List (Nat × Nat)) :
    mergePositions (p :: ps) = mergeRun p ps := by
  unfold mergePositions
  rw [List.foldl_cons]
  rw [show mergeStep [] p = [] ++ [p] from rfl]
  rw [foldl_mergeStep ps [] p]
  rw [List.nil_append]

theorem mergeRun_head : ∀ (ps : List (Nat × Nat)) (c : Nat × Nat),
    ∃ e tl, mergeRun c ps = (c.1, e) :: tl ∧ c.2 ≤ e := by
  intro ps
  induction ps with
  | nil =>
    intro c
    exact ⟨c.2, [], by rw [mergeRun], le_rfl⟩
  | cons p ps ih =>
    intro c
    by_cases hc : c.2 < p.1
    · exact ⟨c.2, mergeRun p ps, by rw [mergeRun_cons_pos hc], le_rfl⟩
    · obtain ⟨e, tl, heq, hle⟩ := ih (c.1, max c.2 p.2)
      exact ⟨e, tl, by rw [mergeRun_cons_neg hc]; exact heq,
        le_trans (le_max_left _ _) hle⟩

theorem mergeRun_chain : ∀ (ps : List (Nat × Nat)) (c : Nat × Nat),
    List.Chain' (fun a b : Nat × Nat => a.2 < b.1) (mergeRun c ps) := by
  intro ps
  induction ps with
  | nil =>
    intro c
    rw [mergeRun]
    exact List.chain'_singleton c
  | cons p ps ih =>
    intro c
    by_cases hc : c.2 < p.1
    · rw [mergeRun_cons_pos hc]
      obtain ⟨e, tl, heq, -⟩ := mergeRun_head ps p
      rw [heq]
      refine List.chain'_cons.mpr ⟨hc, ?_⟩
      rw [← heq]
      exact ih p
    · rw [mergeRun_cons_neg hc]
      exact ih (c.1, max c.2 p.2)

theorem mergeRun_mem {fn q : Str} : ∀ (ps : List (Nat × Nat)) (c : Nat × Nat),
    c.1 ≤ c.2 → c.2 ≤ fn.length → coverSpan fn q c.1 c.2 →
    (∀ p ∈ ps, occursAt fn q p.1 ∧ p.2 = p.1 + q.length) →
    List.Pairwise (fun a b : Nat × Nat => a.1 < b.1) (c :: ps) →
    ∀ m ∈ mergeRun c ps, m.1 ≤ m.2 ∧ m.2 ≤ fn.length ∧ coverSpan fn q m.1 m.2 := by
  intro ps
  induction ps with
  | nil =>
    intro c h1 h2 h3 _ _ m hm
    rw [show mergeRun c [] = [c] from by rw [mergeRun]] at hm
    rcases List.mem_singleton.mp hm with rfl
    exact ⟨h1, h2, h3⟩
  | cons p ps ih =>
    intro c h1 h2 h3 hocc hpw
    have hop := hocc p (List.mem_cons_self p ps)
    have hlenp := hop.2
    have hpN : p.1 + q.length ≤ fn.length := hop.1.2
    have hcp : c.1 < p.1 := List.rel_of_pairwise_cons hpw (List.mem_cons_self p ps)
    by_cases hc : c.2 < p.1
    · rw [mergeRun_cons_pos hc]
      intro m hm
      rcases List.mem_cons.mp hm with rfl | hmem
      · exact ⟨h1, h2, h3⟩
      · refine ih p (by omega) (by omega) ?_ ?_ hpw.of_cons m hmem
        · intro i hi1 hi2
          exact ⟨p.1, le_rfl, by omega, hop.1, hi1, by omega⟩
        · exact fun r hr => hocc r (List.mem_cons_of_mem p hr)
    · rw [mergeRun_cons_neg hc]
      refine ih (c.1, max c.2 p.2) (by simp only; omega) (by simp only; omega) ?_ ?_ ?_
      · intro i hi1 hi2
        simp only at hi1 hi2
        by_cases hin : i < c.2
        · obtain ⟨pp, ha, hb, hc', hd, he⟩ := h3 i hi1 hin
          exact ⟨pp, ha, by simp only; omega, hc', hd, he⟩
        · refine ⟨p.1, by simp only; omega, by simp only; omega, hop.1, by omega, by omega⟩
      · exact fun r hr => hocc r (List.mem_cons_of_mem p hr)
      · refine List.Pairwise.cons ?_ hpw.of_cons.of_cons
        intro r hr
        have := List.rel_of_pairwise_cons hpw (List.mem_cons_of_mem p hr)
        simp only
        omega

theorem mergeRun_contain : ∀ (ps : List (Nat × Nat)) (c : Nat × Nat),
    List.Pairwise (fun a b : Nat × Nat => a.1 < b.1) (c :: ps) →
    ∀ x ∈ c :: ps, ∃ m ∈ mergeRun c ps, m.1 ≤ x.1 ∧ x.2 ≤ m.2 := by
  intro ps
  induction ps with
  | nil =>
    intro c _ x hx
    rcases List.mem_cons.mp hx with rfl | h
    · exact ⟨x, by rw [mergeRun]; exact List.mem_singleton.mpr rfl, le_rfl, le_rfl⟩
    · simp at h
  | cons p ps ih =>
    intro c hpw x hx
    have hcp : c.1 < p.1 := List.rel_of_pairwise_cons hpw (List.mem_cons_self p ps)
    by_cases hc : c.2 < p.1
    · rw [mergeRun_cons_pos hc]
      rcases List.mem_cons.mp hx with rfl | hmem
      · exact ⟨x, List.mem_cons_self x _, le_rfl, le_rfl⟩
      · obtain ⟨m, hm, hm1, hm2⟩ := ih p hpw.of_cons x hmem
        exact ⟨m, List.mem_cons_of_mem c hm, hm1, hm2⟩
    · rw [mergeRun_cons_neg hc]
      have hpw' : List.Pairwise (fun a b : Nat × Nat => a.1 < b.1)
          ((c.1, max c.2 p.2) :: ps) := by
        refine List.Pairwise.cons ?_ hpw.of_cons.of_cons
        intro r hr
        have := List.rel_of_pairwise_cons hpw (List.mem_cons_of_mem p hr)
        simp only
        omega
      rcases List.mem_cons.mp hx with rfl | hmem
      · obtain ⟨m, hm, hm1, hm2⟩ := ih (x.1, max x.2 p.2) hpw'
          (x.1, max x.2 p.2) (List.mem_cons_self _ _)
        refine ⟨m, hm, ?_, ?_⟩
        · simpa using hm1
        · simp only at hm2
          omega
      · rcases List.mem_cons.mp hmem with rfl | hmem'
        · obtain ⟨m, hm, hm1, hm2⟩ := ih (c.1, max c.2 x.2) hpw'
            (c.1, max c.2 x.2) (List.mem_cons_self _ _)
          refine ⟨m, hm, ?_, ?_⟩
          · simp only at hm1
            omega
          · simp only at hm2
            omega
        · obtain ⟨m, hm, hm1, hm2⟩ := ih (c.1, max c.2 p.2) hpw' x
            (List.mem_cons_of_mem _ hmem')
          exact ⟨m, hm, hm1, hm2⟩

theorem drop_split {f : Str} {a b : Nat} (hab : a ≤ b) (hbl : b ≤ f.length) :
    (f.take b).drop a ++ f.drop b = f.drop a := by
  conv_rhs => rw [← List.take_append_drop b f]
  rw [List.drop_append_eq_append_drop]
  have hlen : (f.take b).length = b := by
    rw [List.length_take]
    omega
  rw [hlen, Nat.sub_eq_zero_of_le hab, List.drop_zero]

theorem substr_length {f : Str} {s e : Nat} (he : e ≤ f.length) :
    (substr f s e).length = e - s := by
  unfold substr
  rw [List.length_drop, List.length_take]
  omega

theorem lower_substr (s : Str) (a b : Nat) :
    lower (substr s a b) = substr (lower s) a b := by
  unfold lower substr
  rw [List.map_drop, List.map_take]

theorem fold_substr (cs : Bool) (s : Str) (a b : Nat) :
    fold cs (substr s a b) = substr (fold cs s) a b := by
  unfold fold
  cases cs <;> simp [lower_substr]

theorem fold_length (cs : Bool) (s : Str) : (fold cs s).length = s.length := by
  unfold fold
  cases cs <;> simp [lower_length]

theorem emitFrom_flatten (f : Str) : ∀ (merged : List (Nat × Nat)) (lastEnd : Nat),
    (∀ m ∈ merged, m.1 ≤ m.2 ∧ m.2 ≤ f.length) →
    List.Chain' (fun a b : Nat × Nat => a.2 < b.1) merged →
    (∀ m, merged.head? = some m → lastEnd ≤ m.1) →
    ((emitFrom f lastEnd merged).map segText).flatten = f.drop lastEnd := by
  intro merged
  induction merged with
  | nil =>
    intro lastEnd _ _ _
    rw [show emitFrom f lastEnd [] = [Seg.lit (substr f lastEnd f.length)] from rfl]
    rw [List.map_cons, List.map_nil, List.flatten_cons, List.flatten_nil, List.append_nil]
    rw [show segText (Seg.lit (substr f lastEnd f.length)) = substr f lastEnd f.length from rfl]
    unfold substr
    rw [List.take_length]
  | cons se rest ih =>
    obtain ⟨s, e⟩ := se
    intro lastEnd hb hch hhead
    have hse := hb (s, e) (List.mem_cons_self _ _)
    have hlastEnd : lastEnd ≤ s := hhead (s, e) rfl
    rw [show emitFrom f lastEnd ((s, e) :: rest) =
      Seg.lit (substr f lastEnd s) :: Seg.hit (substr f s e) :: emitFrom f e rest from rfl]
    rw [List.map_cons, List.map_cons, List.flatten_cons, List.flatten_cons]
    rw [show segText (Seg.lit (substr f lastEnd s)) = substr f lastEnd s from rfl]
    rw [show segText (Seg.hit (substr f s e)) = substr f s e from rfl]
    rw [ih e (fun m hm => hb m (List.mem_cons_of_mem _ hm)) hch.tail ?_]
    · rw [substr, substr, drop_split hse.1 hse.2]
      have hsl : s ≤ f.length := le_trans hse.1 hse.2
      rw [drop_split hlastEnd hsl]
    · intro m hm
      cases rest with
      | nil => simp at hm
      | cons r rs =>
        obtain rfl : r = m := by simpa using hm
        have := (List.chain'_cons.mp hch).1
        omega

theorem emitFrom_hit {f : Str} : ∀ (merged : List (Nat × Nat)) (lastEnd : Nat) (t : Str),
    Seg.hit t ∈ emitFrom f lastEnd merged →
    ∃ se ∈ merged, t = substr f se.1 se.2 := by
  intro merged
  induction merged with
  | nil =>
    intro lastEnd t ht
    rw [show emitFrom f lastEnd [] = [Seg.lit (substr f lastEnd f.length)] from rfl] at ht
    simp at ht
  | cons se rest ih =>
    obtain ⟨s, e⟩ := se
    intro lastEnd t ht
    rw [show emitFrom f lastEnd ((s, e) :: rest) =
      Seg.lit (substr f lastEnd s) :: Seg.hit (substr f s e) :: emitFrom f e rest from rfl] at ht
    rcases List.mem_cons.mp ht with h1 | ht2
    · cases h1
    · rcases List.mem_cons.mp ht2 with h2 | ht3
      · obtain rfl : t = substr f s e := by
          injection h2
        exact ⟨(s, e), List.mem_cons_self _ _, rfl⟩
      · obtain ⟨se', hm, heq⟩ := ih e t ht3
        exact ⟨se', List.mem_cons_of_mem _ hm, heq⟩

/-! ### Claims C4 and C5: the highlighter -/

/-- Claim C4: concatenating the highlighter's segments in order reproduces
the original filename with its casing, and every matched segment's
case-folded text consists of occurrences of the case-folded query: each of
its characters lies inside an occurrence of the folded query within the
folded segment text. -/
theorem highlight_round_trip (filename query : Str) (cs : Bool) (hq : query ≠ []) :
    ((boldSegments filename query cs).map segText).flatten = filename ∧
    (∀ t, Seg.hit t ∈ boldSegments filename query cs →
      ∀ i, i < t.length →
        ∃ p, occursAt (fold cs t) (fold cs query) p ∧ p ≤ i ∧ i < p + query.length) := by
  simp only [boldSegments]
  rw [if_neg hq]
  set fn := if cs = true then filename else lower filename with hfn
  set q := if cs = true then query else lower query with hq2
  by_cases hpos : findPositions fn q 0 = []
  · rw [if_pos hpos]
    constructor
    · simp [segText]
    · intro t ht
      exact absurd (List.mem_singleton.mp ht) (by simp)
  · rw [if_neg hpos]
    obtain ⟨p0, ps, hcons⟩ : ∃ p0 ps, findPositions fn q 0 = p0 :: ps := by
      cases hx : findPositions fn q 0 with
      | nil => exact absurd hx hpos
      | cons a l => exact ⟨a, l, rfl⟩
    rw [hcons, mergePositions_cons]
    have hql : q.length = query.length := by
      rw [hq2]; cases cs <;> simp [lower_length]
    have hfl : fn.length = filename.length := by
      rw [hfn]; cases cs <;> simp [lower_length]
    have hmem0 : ∀ pr ∈ p0 :: ps, 0 ≤ pr.1 ∧ occursAt fn q pr.1 ∧ pr.2 = pr.1 + q.length := by
      rw [← hcons]
      exact findPositions_mem 0
    have hf0 := hmem0 p0 (List.mem_cons_self _ _)
    have hlen0 := hf0.2.2
    have hbound0 := hf0.2.1.2
    have hmm : ∀ m ∈ mergeRun p0 ps,
        m.1 ≤ m.2 ∧ m.2 ≤ fn.length ∧ coverSpan fn q m.1 m.2 := by
      refine mergeRun_mem ps p0 (by omega) (by omega) ?_ ?_ ?_
      · intro i hi1 hi2
        exact ⟨p0.1, le_rfl, by omega, hf0.2.1, hi1, by omega⟩
      · exact fun r hr => (hmem0 r (List.mem_cons_of_mem _ hr)).2
      · rw [← hcons]
        exact findPositions_pairwise 0
    constructor
    · have hrt := emitFrom_flatten filename (mergeRun p0 ps) 0
        (fun m hm => ⟨(hmm m hm).1, by have := (hmm m hm).2.1; omega⟩)
        (mergeRun_chain ps p0)
        (fun m _ => Nat.zero_le _)
      rw [hrt]
      exact List.drop_zero filename
    · intro t ht i hi
      obtain ⟨⟨s, e⟩, hmem, rfl⟩ := emitFrom_hit (mergeRun p0 ps) 0 t ht
      obtain ⟨hse1, hse2, hcov⟩ := hmm (s, e) hmem
      dsimp only at hse1 hse2 hcov hi
      have hlen : (substr filename s e).length = e - s := substr_length (by omega)
      rw [hlen] at hi
      obtain ⟨p, hp1, hp2, hp3, hp4, hp5⟩ := hcov (s + i) (by omega) (by omega)
      have hoccb := hp3.2
      refine ⟨p - s, ?_, by omega, by omega⟩
      rw [fold_substr]
      rw [show fold cs filename = fn from by rw [hfn]; rfl]
      rw [show fold cs query = q from by rw [hq2]; rfl]
      constructor
      · show ((substr fn s e).drop (p - s)).take q.length = q
        rw [substr]
        have e1 : ((fn.take e).drop s).drop (p - s) = (fn.take e).drop p := by
          rw [List.drop_drop]
          congr 1
          omega
        rw [e1, List.drop_take, List.take_take]
        rw [show q.length ⊓ (e - p) = q.length by omega]
        exact hp3.1
      · rw [substr_length (show e ≤ fn.length by omega)]
        omega

/-- Witness for C4 at a concrete overlapping-match input. -/
theorem highlight_round_trip_app :
    ((boldSegments "aaa".toList "aa".toList false).map segText).flatten = "aaa".toList :=
  (highlight_round_trip "aaa".toList "aa".toList false (by decide)).1

theorem findPositions_aaa :
    findPositions (fold false "aaa".toList) (fold false "aa".toList) 0 = [(0, 2), (1, 3)] := by
  rw [findPositions_eq_cons (fold false "aaa".toList) (fold false "aa".toList) 0 0
    (by decide) (by decide)]
  rw [show (0 : Nat) + 1 = 1 from rfl]
  rw [findPositions_eq_cons (fold false "aaa".toList) (fold false "aa".toList) 1 1
    (by decide) (by decide)]
  rw [show (1 : Nat) + 1 = 2 from rfl]
  rw [findPositions_eq_nil
    (show firstOccFrom (fold false "aaa".toList) (fold false "aa".toList) 2 = none by decide)]
  decide

/-- Claim C5: the merged spans the highlighter emits are separated — each
span's start is strictly greater than the previous span's end, so
overlapping or adjacent raw occurrences are merged and emitted spans are
never adjacent — every raw occurrence is contained in some merged span,
and for name "aaa", query "aa", case-insensitive, exactly one span
`[0, 3)` is emitted, merged from the occurrences at 0 and 1. -/
theorem merged_spans_separated (filename query : Str) (cs : Bool) :
    List.Chain' (fun a b : Nat × Nat => a.2 < b.1) (mergedSpans filename query cs) ∧
    (∀ pr ∈ findPositions (fold cs filename) (fold cs query) 0,
      ∃ m ∈ mergedSpans filename query cs, m.1 ≤ pr.1 ∧ pr.2 ≤ m.2) ∧
    mergedSpans "aaa".toList "aa".toList false = [(0, 3)] := by
  refine ⟨?_, ?_, ?_⟩
  · unfold mergedSpans
    cases hx : findPositions (fold cs filename) (fold cs query) 0 with
    | nil => exact List.chain'_nil
    | cons p ps =>
      rw [mergePositions_cons]
      exact mergeRun_chain ps p
  · intro pr hpr
    unfold mergedSpans
    cases hx : findPositions (fold cs filename) (fold cs query) 0 with
    | nil => rw [hx] at hpr; simp at hpr
    | cons p ps =>
      rw [hx] at hpr
      rw [mergePositions_cons]
      refine mergeRun_contain ps p ?_ pr hpr
      rw [← hx]
      exact findPositions_pairwise 0
  · unfold mergedSpans
    rw [findPositions_aaa, mergePositions_cons]
    decide

/-- Witness for C5: the raw occurrence at 0 is contained in a merged span. -/
theorem merged_spans_separated_app :
    ∃ m ∈ mergedSpans "aaa".toList "aa".toList false, m.1 ≤ 0 ∧ 2 ≤ m.2 :=
  (merged_spans_separated "aaa".toList "aa".toList false).2.1 (0, 2)
    (by rw [findPositions_aaa]; decide)

end SearchWindow
